import Mathlib

/-!
# Verification of the TallyTriN single-cell demultiplexing core

This file is a shallow embedding, in Lean 4, of the core data-processing
steps of the TallyTriN repository: whitelist merging and task ordering
(from `tallytrin/pipeline_singlecell.py` and `tallytrin/pipeline_10x.py`),
the error-rate grid of the simulation dispatcher
(`src/sequencing/reads/simulate/dispatcher/batch/General.py`), and the
trimer decoding / barcode correction / UMI collapse / count aggregation
stages, which the pipelines delegate to helper scripts
(`correct_10xbarcode.py`, `correct_barcode_nano.py`, `greedy_sc.py`,
`save_mtx.py`).  Where a helper script is not part of the available
sources, the corresponding definition is modelled from the specification
and is marked `Modelled from the spec:` in its doc comment.

Nucleotide sequences are lists over a four-letter alphabet; text lines of
whitelist files are barcode sequences; shell `sort` is modelled as a
lexicographic sort and `uniq` as removal of adjacent duplicate lines.
-/

/-- The nucleotide alphabet.  Constructor order follows ASCII order of the
letters `A < C < G < T`, which is the order shell `sort` uses on barcode
lines. -/
inductive Base : Type
  | A : Base
  | C : Base
  | G : Base
  | T : Base
deriving DecidableEq, Repr

/-- Numeric code of a base, compatible with ASCII order. -/
def Base.code : Base → ℕ
  | .A => 0
  | .C => 1
  | .G => 2
  | .T => 3

/-- A line of a whitelist file / a barcode / a UMI: a nucleotide string. -/
abbrev Line : Type := List Base

/-- Lexicographic order on lines, as shell `sort` orders barcode lines. -/
def lineLe (a b : Line) : Prop := a.map Base.code ≤ b.map Base.code

/-- Strict lexicographic order on lines. -/
def lineLt (a b : Line) : Prop := a.map Base.code < b.map Base.code

instance : DecidableRel lineLe := fun a b =>
  inferInstanceAs (Decidable (a.map Base.code ≤ b.map Base.code))

instance : DecidableRel lineLt := fun a b =>
  inferInstanceAs (Decidable (a.map Base.code < b.map Base.code))

theorem Base.code_injective : Function.Injective Base.code := by
  intro a b h
  cases a <;> cases b <;> simp [Base.code] at h ⊢

theorem lineCode_injective :
    Function.Injective (fun l : Line => l.map Base.code) :=
  List.map_injective_iff.2 Base.code_injective

instance : IsTotal Line lineLe :=
  ⟨fun a b => le_total (a.map Base.code) (b.map Base.code)⟩

instance : IsTrans Line lineLe :=
  ⟨fun _ _ _ h₁ h₂ => le_trans h₁ h₂⟩

instance : IsAntisymm Line lineLe :=
  ⟨fun a b h₁ h₂ => lineCode_injective (le_antisymm h₁ h₂)⟩

instance : IsTrans Line lineLt :=
  ⟨fun _ _ _ h₁ h₂ => lt_trans h₁ h₂⟩

instance : IsIrrefl Line lineLt :=
  ⟨fun a => lt_irrefl (a.map Base.code)⟩

instance : IsAntisymm Line lineLt :=
  ⟨fun _ _ h₁ h₂ => absurd (lt_trans h₁ h₂) (irrefl _)⟩

theorem lineLt_of_le_of_ne {a b : Line} (h : lineLe a b) (hne : a ≠ b) :
    lineLt a b :=
  lt_of_le_of_ne h (fun hc => hne (lineCode_injective hc))

theorem lineLe_of_lt {a b : Line} (h : lineLt a b) : lineLe a b := le_of_lt h

theorem lineLt_or_lt_of_ne {a b : Line} (hne : a ≠ b) :
    lineLt a b ∨ lineLt b a := by
  rcases lt_or_gt_of_ne (fun hc : a.map Base.code = b.map Base.code =>
    hne (lineCode_injective hc)) with h | h
  · exact Or.inl h
  · exact Or.inr h

/-- Hamming-style edit distance between nucleotide strings: the number of
positions at which they differ, plus the length difference when lengths
disagree.  `Modelled from the spec:` the barcode-correction and
UMI-collapse scripts are not among the available sources; the spec asks
for a Hamming distance on fixed-length barcodes, made total here on
unequal lengths by charging each overhanging base. -/
def hamming : Line → Line → ℕ
  | [], bs => bs.length
  | a :: as, [] => (a :: as).length
  | a :: as, b :: bs => (if a = b then 0 else 1) + hamming as bs

theorem hamming_self (l : Line) : hamming l l = 0 := by
  induction l with
  | nil => simp [hamming]
  | cons a as ih => simp [hamming, ih]

theorem eq_of_hamming_eq_zero : ∀ {a b : Line}, hamming a b = 0 → a = b
  | [], [], _ => rfl
  | [], _ :: _, h => by simp [hamming] at h
  | _ :: _, [], h => by simp [hamming] at h
  | a :: as, b :: bs, h => by
      by_cases hab : a = b
      · subst hab
        simp only [hamming, if_true, eq_self_iff_true, Nat.zero_add] at h
        exact congrArg (a :: ·) (eq_of_hamming_eq_zero h)
      · simp [hamming, hab] at h

/-- Removal of adjacent duplicate lines, as the shell `uniq` command does
on its input stream. -/
def uniq {α : Type} [DecidableEq α] : List α → List α
  | [] => []
  | [a] => [a]
  | a :: b :: rest => if a = b then uniq (b :: rest) else a :: uniq (b :: rest)

theorem mem_uniq {α : Type} [DecidableEq α] :
    ∀ {l : List α} {x : α}, x ∈ uniq l ↔ x ∈ l
  | [], _ => Iff.rfl
  | [a], _ => Iff.rfl
  | a :: b :: rest, x => by
      by_cases hab : a = b
      · subst hab
        simp only [uniq, if_true, eq_self_iff_true]
        rw [mem_uniq (l := a :: rest)]
        simp
      · simp only [uniq, if_neg hab, List.mem_cons]
        rw [mem_uniq (l := b :: rest)]
        simp

theorem sorted_lt_uniq :
    ∀ {l : List Line}, l.Sorted lineLe → (uniq l).Sorted lineLt
  | [], _ => List.sorted_nil
  | [a], _ => List.sorted_singleton a
  | a :: b :: rest, h => by
      have htail : (b :: rest).Sorted lineLe := h.of_cons
      have hab : lineLe a b := (List.sorted_cons.1 h).1 b (by simp)
      by_cases heq : a = b
      · subst heq
        simpa [uniq] using sorted_lt_uniq htail
      · simp only [uniq, if_neg heq]
        refine List.sorted_cons.2 ⟨?_, sorted_lt_uniq htail⟩
        intro x hx
        have hxmem : x ∈ b :: rest := mem_uniq.1 hx
        have hbx : lineLe b x := by
          rcases List.mem_cons.1 hxmem with hxb | hxr
          · subst hxb; exact le_refl _
          · exact (List.sorted_cons.1 htail).1 x hxr
        have hax : lineLe a x := le_trans hab hbx
        refine lineLt_of_le_of_ne hax ?_
        intro hxa
        subst hxa
        exact heq (antisymm hab hbx)

theorem nodup_uniq_of_sorted {l : List Line} (h : l.Sorted lineLe) :
    (uniq l).Nodup :=
  (sorted_lt_uniq h).nodup

theorem sorted_le_uniq {l : List Line} (h : l.Sorted lineLe) :
    (uniq l).Sorted lineLe :=
  (sorted_lt_uniq h).imp (fun hlt => lineLe_of_lt hlt)

/-! ## Trimer decoding (majority vote over base triplets)

`Modelled from the spec:` the decoding scripts invoked by
`identify_bcumi`/`correct_reads` (`identify_perfect_nano.py`,
`correct_barcode_nano.py`) are not among the available sources.  The
decoder below follows the spec: a triplet with all three bases equal
decodes to that base with confidence 3, a triplet with exactly two equal
bases decodes to the majority base with confidence 2, and a triplet of
three distinct bases is an ambiguous triplet carrying no base. -/

/-- Outcome of decoding one base triplet. -/
inductive TriDecode : Type
  | decoded : Base → ℕ → TriDecode
  | ambiguousTriplet : TriDecode
deriving DecidableEq, Repr

/-- `Modelled from the spec:` majority vote over one triplet of bases. -/
def decodeTriplet (a b c : Base) : TriDecode :=
  if a = b ∧ b = c then .decoded a 3
  else if a = b ∨ a = c then .decoded a 2
  else if b = c then .decoded b 2
  else .ambiguousTriplet

/-- How many of the three bases of a triplet equal `x`. -/
def tripletCount (a b c x : Base) : ℕ :=
  (if a = x then 1 else 0) + (if b = x then 1 else 0) + (if c = x then 1 else 0)

instance : Fintype Base :=
  ⟨⟨{Base.A, Base.C, Base.G, Base.T}, by decide⟩, by intro x; cases x <;> decide⟩

/-- C2: for every base triplet in the barcode/UMI window, if all three
bases agree the decoder emits that base with confidence 3; if exactly two
agree it emits the majority base with confidence 2; if all three are
distinct it reports an ambiguous triplet and never emits a guessed base;
hence every trimer with at most one mismatched base decodes to the
majority base exactly (with confidence equal to the agreement count). -/
theorem C2_trimer_decoder :
    ∀ a b c : Base,
      (a = b ∧ b = c → decodeTriplet a b c = .decoded a 3) ∧
      (∀ m, tripletCount a b c m = 2 → decodeTriplet a b c = .decoded m 2) ∧
      ((a ≠ b ∧ a ≠ c ∧ b ≠ c) → decodeTriplet a b c = .ambiguousTriplet ∧
        ∀ m conf, decodeTriplet a b c ≠ TriDecode.decoded m conf) ∧
      (∀ m, 2 ≤ tripletCount a b c m →
        decodeTriplet a b c = .decoded m (tripletCount a b c m)) := by
  intro a b c
  have hdist : (a ≠ b ∧ a ≠ c ∧ b ≠ c) → decodeTriplet a b c = .ambiguousTriplet := by
    cases a <;> cases b <;> cases c <;> decide
  refine ⟨?_, ?_, fun h => ⟨hdist h, ?_⟩, ?_⟩
  · cases a <;> cases b <;> cases c <;> decide
  · cases a <;> cases b <;> cases c <;> decide
  · rw [hdist h]
    intro m conf hc
    exact TriDecode.noConfusion hc
  · cases a <;> cases b <;> cases c <;> decide

theorem C2_trimer_decoder_witness :
    decodeTriplet .A .A .G = .decoded .A 2 ∧
    decodeTriplet .A .C .G = .ambiguousTriplet :=
  ⟨(C2_trimer_decoder .A .A .G).2.1 .A (by decide),
   ((C2_trimer_decoder .A .C .G).2.2.1 (by decide)).1⟩

/-! ## Error-rate grid of the simulation dispatcher

Embedding of `general.errors` from
`src/sequencing/reads/simulate/dispatcher/batch/General.py`.  The Python
`while` loop starts at `e = 1e-5`, multiplies `e` by 10 each iteration
while `e < 3e-1`, appending `e` (and, when `5 * e < 3e-1`, also `2.5 * e`,
`5 * e` and `7.5 * e`) to both `pcr_errs` and `seq_errs`; afterwards `0.2`
and `0.3` are appended to both lists.  Arithmetic is modelled exactly over
`ℚ`.  The loop is embedded with a fuel parameter; 6 iterations of fuel
suffice, and `errorsLoop_stable` shows any larger fuel gives the same
result, so the fuel bound does not alter the modelled loop. -/

def errorsLoop : ℕ → ℚ → List ℚ × List ℚ
  | 0, _ => ([], [])
  | n + 1, e =>
    if e < 3e-1 then
      let rest := errorsLoop n (10 * e)
      if 5 * e < 3e-1 then
        (e :: 2.5 * e :: 5 * e :: 7.5 * e :: rest.1,
         e :: 2.5 * e :: 5 * e :: 7.5 * e :: rest.2)
      else
        (e :: rest.1, e :: rest.2)
    else ([], [])

/-- The pair `(pcr_errs, seq_errs)` returned by `general.errors`. -/
def general.errors : List ℚ × List ℚ :=
  ((errorsLoop 6 1e-5).1 ++ [0.2, 0.3], (errorsLoop 6 1e-5).2 ++ [0.2, 0.3])

theorem errorsLoop_of_ge {e : ℚ} (h : 3e-1 ≤ e) :
    ∀ n, errorsLoop n e = ([], []) := by
  intro n
  cases n with
  | zero => rfl
  | succ m => simp [errorsLoop, not_lt.2 h]

theorem errorsLoop_stable (k : ℕ) :
    errorsLoop (k + 6) 1e-5 = errorsLoop 6 1e-5 := by
  have h1 : ∀ m, errorsLoop m (1 : ℚ) = ([], []) :=
    errorsLoop_of_ge (by norm_num)
  norm_num [errorsLoop]

/-- C10: the simulation dispatcher's error grid consists of two
element-wise identical lists (`pcr_errs = seq_errs`); each list is
strictly increasing, its first element is `1e-5`, its last element is
`0.3`, and every element lies in the interval `[1e-5, 0.3]`. -/
theorem C10_general_errors_grid :
    general.errors.1 = general.errors.2 ∧
    List.Chain' (· < ·) general.errors.1 ∧
    general.errors.1.head? = some 1e-5 ∧
    general.errors.1.getLast? = some 0.3 ∧
    general.errors.1.Forall (fun x => 1e-5 ≤ x ∧ x ≤ 0.3) := by
  have hfst : general.errors.1 =
      [1e-5, 2.5e-5, 5e-5, 7.5e-5, 1e-4, 2.5e-4, 5e-4, 7.5e-4,
       1e-3, 2.5e-3, 5e-3, 7.5e-3, 1e-2, 2.5e-2, 5e-2, 7.5e-2,
       1e-1, 0.2, 0.3] := by
    norm_num [general.errors, errorsLoop]
  have hsnd : general.errors.2 =
      [1e-5, 2.5e-5, 5e-5, 7.5e-5, 1e-4, 2.5e-4, 5e-4, 7.5e-4,
       1e-3, 2.5e-3, 5e-3, 7.5e-3, 1e-2, 2.5e-2, 5e-2, 7.5e-2,
       1e-1, 0.2, 0.3] := by
    norm_num [general.errors, errorsLoop]
  rw [hfst, hsnd]
  refine ⟨rfl, ?_, ?_, ?_, ?_⟩
  · norm_num [List.chain'_cons]
  · norm_num
  · norm_num [List.getLast?]
  · norm_num [List.Forall]

/-! ## Whitelist merging

Embedding of the `merge_whitelist` tasks.  A whitelist file is a list of
lines; `cat` concatenates the files in the order given.  In
`pipeline_singlecell.py` the statement is
`cat <files> | sort | uniq > whitelist.txt`; in `pipeline_10x.py` it is
`cat <files> > whitelist.txt` with no sorting or de-duplication. -/

/-- Shell `cat`: concatenation of the input files, in the order given. -/
def catFiles (files : List (List Line)) : List Line := files.flatten

/-- `merge_whitelist` of `pipeline_singlecell.py`: `cat | sort | uniq`. -/
def merge_whitelist_singlecell (files : List (List Line)) : List Line :=
  uniq (List.insertionSort lineLe (catFiles files))

/-- `merge_whitelist` of `pipeline_10x.py`: `cat` only. -/
def merge_whitelist_10x (files : List (List Line)) : List Line :=
  catFiles files

theorem mem_merge_whitelist_singlecell {fs : List (List Line)} {x : Line} :
    x ∈ merge_whitelist_singlecell fs ↔ x ∈ catFiles fs :=
  mem_uniq.trans (List.perm_insertionSort lineLe (catFiles fs)).mem_iff

theorem sorted_merge_whitelist_singlecell (fs : List (List Line)) :
    (merge_whitelist_singlecell fs).Sorted lineLe :=
  sorted_le_uniq (List.sorted_insertionSort lineLe (catFiles fs))

theorem sorted_lt_merge_whitelist_singlecell (fs : List (List Line)) :
    (merge_whitelist_singlecell fs).Sorted lineLt :=
  sorted_lt_uniq (List.sorted_insertionSort lineLe (catFiles fs))

theorem nodup_merge_whitelist_singlecell (fs : List (List Line)) :
    (merge_whitelist_singlecell fs).Nodup :=
  nodup_uniq_of_sorted (List.sorted_insertionSort lineLe (catFiles fs))

/-- The singlecell merge output is determined by the set of input lines. -/
theorem merge_whitelist_singlecell_eq_of_mem_iff
    {fs fs' : List (List Line)}
    (h : ∀ x, x ∈ catFiles fs ↔ x ∈ catFiles fs') :
    merge_whitelist_singlecell fs = merge_whitelist_singlecell fs' := by
  have hperm : (merge_whitelist_singlecell fs).Perm
      (merge_whitelist_singlecell fs') := by
    refine List.perm_of_nodup_nodup_toFinset_eq
      (nodup_merge_whitelist_singlecell fs)
      (nodup_merge_whitelist_singlecell fs') ?_
    ext x
    simp only [List.mem_toFinset, mem_merge_whitelist_singlecell]
    exact h x
  exact List.eq_of_perm_of_sorted hperm
    (sorted_lt_merge_whitelist_singlecell fs)
    (sorted_lt_merge_whitelist_singlecell fs')

/-- C3, counterexample to the claim as stated: the 10x `merge_whitelist`
(plain `cat`) applied to the chunk whitelists `[C]` and `[A]` in the two
possible orders yields two different outputs, and neither permutation
yields a lexicographically sorted list, contradicting the claim that
merging in any permutation yields an identical, deterministically sorted
whitelist. -/
theorem C3_counterexample_10x_merge_unsorted :
    merge_whitelist_10x [[[Base.C]], [[Base.A]]] ≠
      merge_whitelist_10x [[[Base.A]], [[Base.C]]] ∧
    ¬ (merge_whitelist_10x [[[Base.C]], [[Base.A]]]).Sorted lineLe := by
  refine ⟨by decide, ?_⟩
  intro h
  have := (List.sorted_cons.1 h).1 [Base.A] (by decide)
  revert this
  decide

/-- C3 (amended): the singlecell `merge_whitelist` (`cat | sort | uniq`)
is commutative and associative in the required sense: merging the chunk
whitelists in any permutation yields an identical output, the output is
deterministically sorted (lexicographically), and incremental merging of
two batches equals the one-shot reduction.  The 10x `merge_whitelist`
(plain `cat`) yields the same multiset of lines under any permutation of
the chunks, but not an identical (nor sorted, nor deduplicated) file. -/
theorem C3_whitelist_merge_order_independent :
    (∀ fs fs' : List (List Line), fs.Perm fs' →
        merge_whitelist_singlecell fs = merge_whitelist_singlecell fs') ∧
    (∀ fs : List (List Line),
        (merge_whitelist_singlecell fs).Sorted lineLe) ∧
    (∀ fs₁ fs₂ : List (List Line),
        merge_whitelist_singlecell (fs₁ ++ fs₂) =
          merge_whitelist_singlecell
            [merge_whitelist_singlecell fs₁, merge_whitelist_singlecell fs₂]) ∧
    (∀ fs fs' : List (List Line), fs.Perm fs' →
        (merge_whitelist_10x fs).Perm (merge_whitelist_10x fs')) := by
  refine ⟨?_, sorted_merge_whitelist_singlecell, ?_, ?_⟩
  · intro fs fs' hperm
    exact merge_whitelist_singlecell_eq_of_mem_iff
      (fun x => (hperm.flatten).mem_iff)
  · intro fs₁ fs₂
    refine merge_whitelist_singlecell_eq_of_mem_iff (fun x => ?_)
    simp only [catFiles, List.mem_flatten, List.mem_append, List.mem_cons,
      List.mem_singleton, List.not_mem_nil, or_false]
    constructor
    · rintro ⟨f, hf | hf, hx⟩
      · exact ⟨merge_whitelist_singlecell fs₁, Or.inl rfl,
          mem_merge_whitelist_singlecell.2 (List.mem_flatten.2 ⟨f, hf, hx⟩)⟩
      · exact ⟨merge_whitelist_singlecell fs₂, Or.inr rfl,
          mem_merge_whitelist_singlecell.2 (List.mem_flatten.2 ⟨f, hf, hx⟩)⟩
    · rintro ⟨f, hf | hf, hx⟩
      · subst hf
        obtain ⟨g, hg, hxg⟩ :=
          List.mem_flatten.1 (mem_merge_whitelist_singlecell.1 hx)
        exact ⟨g, Or.inl hg, hxg⟩
      · subst hf
        obtain ⟨g, hg, hxg⟩ :=
          List.mem_flatten.1 (mem_merge_whitelist_singlecell.1 hx)
        exact ⟨g, Or.inr hg, hxg⟩
  · intro fs fs' hperm
    exact hperm.flatten

theorem C3_whitelist_merge_witness :
    merge_whitelist_singlecell [[[Base.C]], [[Base.A]]] =
      merge_whitelist_singlecell [[[Base.A]], [[Base.C]]] ∧
    (merge_whitelist_singlecell [[[Base.C]], [[Base.A]]]).Sorted lineLe ∧
    (merge_whitelist_10x [[[Base.C]], [[Base.A]]]).Perm
      (merge_whitelist_10x [[[Base.A]], [[Base.C]]]) :=
  ⟨C3_whitelist_merge_order_independent.1 _ _ (by decide),
   C3_whitelist_merge_order_independent.2.1 _,
   C3_whitelist_merge_order_independent.2.2.2 _ _ (by decide)⟩

theorem line_count_eq_one_of_nodup {l : List Line} {b : Line}
    (hn : l.Nodup) (hb : b ∈ l) : List.count b l = 1 := by
  induction l with
  | nil => cases hb
  | cons a l ih =>
    rcases List.mem_cons.1 hb with rfl | hmem
    · rw [List.count_cons_self]
      have hnot : b ∉ l := (List.nodup_cons.1 hn).1
      rw [List.count_eq_zero.2 hnot]
    · have hne : b ≠ a := by
        rintro rfl
        exact (List.nodup_cons.1 hn).1 hmem
      rw [List.count_cons_of_ne hne, ih (List.nodup_cons.1 hn).2 hmem]

/-- C4, counterexample to the claim as stated: the 10x `merge_whitelist`
(plain `cat`) of two chunk whitelists both containing barcode `A` keeps
the barcode twice — the merged output is not a de-duplicated set in which
each barcode appears exactly once. -/
theorem C4_counterexample_10x_merge_duplicates :
    List.count [Base.A] (merge_whitelist_10x [[[Base.A]], [[Base.A]]]) = 2 ∧
    ¬ (merge_whitelist_10x [[[Base.A]], [[Base.A]]]).Nodup := by
  refine ⟨by decide, ?_⟩
  intro h
  exact (by decide : ¬ ([[Base.A], [Base.A]] : List Line).Nodup) h

/-- C4 (amended): the singlecell merged whitelist is the de-duplicated
set of distinct barcode lines of the concatenated chunk whitelists — each
barcode appears exactly once — and the merge adds no frequency
annotation: its lines are exactly the barcode lines that occur in some
chunk whitelist.  The 10x merge is plain concatenation of the chunk
whitelists, retaining duplicates. -/
theorem C4_whitelist_dedup :
    (∀ fs : List (List Line), (merge_whitelist_singlecell fs).Nodup) ∧
    (∀ (fs : List (List Line)) (b : Line),
        b ∈ merge_whitelist_singlecell fs ↔ ∃ f ∈ fs, b ∈ f) ∧
    (∀ (fs : List (List Line)) (b : Line), b ∈ merge_whitelist_singlecell fs →
        List.count b (merge_whitelist_singlecell fs) = 1) ∧
    (∀ fs : List (List Line), merge_whitelist_10x fs = fs.flatten) := by
  refine ⟨nodup_merge_whitelist_singlecell, ?_, ?_, fun fs => rfl⟩
  · intro fs b
    exact mem_merge_whitelist_singlecell.trans List.mem_flatten
  · intro fs b hb
    exact line_count_eq_one_of_nodup (nodup_merge_whitelist_singlecell fs) hb

theorem C4_whitelist_dedup_witness :
    List.count [Base.A]
      (merge_whitelist_singlecell [[[Base.A]], [[Base.A]]]) = 1 ∧
    ([Base.A] ∈ merge_whitelist_singlecell [[[Base.A]], [[Base.A]]] ↔
      ∃ f ∈ [[[Base.A]], [[Base.A]]], [Base.A] ∈ f) :=
  ⟨C4_whitelist_dedup.2.2.1 [[[Base.A]], [[Base.A]]] [Base.A]
      ((C4_whitelist_dedup.2.1 _ _).2 ⟨[[Base.A]], by decide⟩),
   C4_whitelist_dedup.2.1 [[[Base.A]], [[Base.A]]] [Base.A]⟩

/-! ## Pipeline task ordering

Embedding of the ruffus task graphs.  Each `@transform(f, ...)` or
`@merge(f, ...)` decorator makes the decorated task depend on task `f`,
and each `@follows(f)` adds a further dependency (`@follows(mkdir(...))`
creates a directory and adds no task dependency).  A pipeline run is any
execution order of all tasks that respects the dependencies.

In `pipeline_10x.py`, `correct_reads` carries `@follows(merge_whitelist)`
and its statement passes `--whitelist=whitelist.txt` (the output of
`merge_whitelist`) to `correct_10xbarcode.py`.  In
`pipeline_singlecell.py`, `correct_reads` has only
`@transform(identify_bcumi, ...)` — no dependency on `merge_whitelist` —
and its statement passes only `--infile`/`--outfile` to
`correct_barcode_nano.py`, with no whitelist argument. -/

/-- Tasks of `pipeline_10x.py`. -/
inductive Task10x : Type
  | split_fastq | correct_polyA | identify_bcumi | merge_whitelist
  | correct_reads | merge_correct_reads | mapping | run_samtools
  | add_xt_tag | count | convert_tomtx | full
deriving DecidableEq, Repr

/-- Task dependencies of `pipeline_10x.py`, read off the decorators. -/
def deps10x : Task10x → List Task10x
  | .split_fastq => []
  | .correct_polyA => [.split_fastq]
  | .identify_bcumi => [.correct_polyA]
  | .merge_whitelist => [.identify_bcumi]
  | .correct_reads => [.merge_whitelist, .identify_bcumi]
  | .merge_correct_reads => [.correct_reads]
  | .mapping => [.merge_correct_reads]
  | .run_samtools => [.mapping]
  | .add_xt_tag => [.run_samtools]
  | .count => [.add_xt_tag]
  | .convert_tomtx => [.count]
  | .full => [.convert_tomtx]

/-- All tasks of `pipeline_10x.py`. -/
def all10x : List Task10x :=
  [.split_fastq, .correct_polyA, .identify_bcumi, .merge_whitelist,
   .correct_reads, .merge_correct_reads, .mapping, .run_samtools,
   .add_xt_tag, .count, .convert_tomtx, .full]

/-- Tasks of `pipeline_singlecell.py`. -/
inductive TaskSC : Type
  | split_fastq | correct_polyA | identify_bcumi | merge_whitelist
  | correct_reads | merge_correct_reads | mapping | run_samtools
  | add_xt_tag | count | convert_tomtx
  | merge_uncorrect_reads | mapping_trimer
  | collapse_reads | merge_singlenuc_reads | mapping_collapsed
  | run_samtools_collapsed | add_xt_tag_collapsed | count_collapsed
  | convert_tomtx_collapsed | count_collapsed_direction
  | convert_tomtx_directional
  | merge_trimer_bcumi | run_minimap2_trimer | run_samtools_trimer
  | add_xt_tag_trimer | run_greedy | full
deriving DecidableEq, Repr

/-- Task dependencies of `pipeline_singlecell.py`, read off the
decorators.  Note `correct_reads` depends only on `identify_bcumi`:
unlike the 10x pipeline, it has no `@follows(merge_whitelist)`. -/
def depsSC : TaskSC → List TaskSC
  | .split_fastq => []
  | .correct_polyA => [.split_fastq]
  | .identify_bcumi => [.correct_polyA]
  | .merge_whitelist => [.identify_bcumi]
  | .correct_reads => [.identify_bcumi]
  | .merge_correct_reads => [.correct_reads]
  | .mapping => [.merge_correct_reads]
  | .run_samtools => [.mapping]
  | .add_xt_tag => [.run_samtools]
  | .count => [.add_xt_tag]
  | .convert_tomtx => [.count]
  | .merge_uncorrect_reads => [.identify_bcumi]
  | .mapping_trimer => [.merge_uncorrect_reads]
  | .collapse_reads => [.identify_bcumi]
  | .merge_singlenuc_reads => [.collapse_reads]
  | .mapping_collapsed => [.merge_singlenuc_reads]
  | .run_samtools_collapsed => [.mapping_collapsed]
  | .add_xt_tag_collapsed => [.run_samtools_collapsed]
  | .count_collapsed => [.add_xt_tag_collapsed]
  | .convert_tomtx_collapsed => [.count_collapsed]
  | .count_collapsed_direction => [.add_xt_tag_collapsed]
  | .convert_tomtx_directional => [.count_collapsed_direction]
  | .merge_trimer_bcumi => [.correct_reads]
  | .run_minimap2_trimer => [.merge_trimer_bcumi]
  | .run_samtools_trimer => [.run_minimap2_trimer]
  | .add_xt_tag_trimer => [.run_samtools_trimer]
  | .run_greedy => [.add_xt_tag_trimer]
  | .full => [.convert_tomtx_directional, .convert_tomtx_collapsed,
      .convert_tomtx, .run_greedy]

/-- All tasks of `pipeline_singlecell.py`. -/
def allSC : List TaskSC :=
  [.split_fastq, .correct_polyA, .identify_bcumi, .merge_whitelist,
   .correct_reads, .merge_correct_reads, .mapping, .run_samtools,
   .add_xt_tag, .count, .convert_tomtx,
   .merge_uncorrect_reads, .mapping_trimer,
   .collapse_reads, .merge_singlenuc_reads, .mapping_collapsed,
   .run_samtools_collapsed, .add_xt_tag_collapsed, .count_collapsed,
   .convert_tomtx_collapsed, .count_collapsed_direction,
   .convert_tomtx_directional,
   .merge_trimer_bcumi, .run_minimap2_trimer, .run_samtools_trimer,
   .add_xt_tag_trimer, .run_greedy, .full]

/-- A valid run schedule: an execution order of all tasks in which every
task runs after each of its dependencies. -/
def ValidSchedule {T : Type} [DecidableEq T]
    (deps : T → List T) (all : List T) (s : List T) : Prop :=
  s.Perm all ∧ ∀ t ∈ s, ∀ d ∈ deps t, s.indexOf d < s.indexOf t

/-- Whether a task's shell statement reads `whitelist.txt`, read off the
statement strings of `pipeline_10x.py`: only `correct_reads` passes
`--whitelist=whitelist.txt`. -/
def readsWhitelistTxt10x : Task10x → Bool
  | .correct_reads => true
  | _ => false

/-- Whether a task writes `whitelist.txt` in `pipeline_10x.py`: only
`merge_whitelist` does. -/
def writesWhitelistTxt10x : Task10x → Bool
  | .merge_whitelist => true
  | _ => false

/-- Whether a task's shell statement reads `whitelist.txt` in
`pipeline_singlecell.py`: none does — in particular `correct_reads`
invokes `correct_barcode_nano.py` with only `--infile`/`--outfile`. -/
def readsWhitelistTxtSC : TaskSC → Bool
  | _ => false

/-- A concrete valid schedule of `pipeline_singlecell.py` in which the
per-chunk barcode-correction task runs before the whitelist merge. -/
def schedSC : List TaskSC :=
  [.split_fastq, .correct_polyA, .identify_bcumi, .correct_reads,
   .merge_whitelist, .merge_correct_reads, .mapping, .run_samtools,
   .add_xt_tag, .count, .convert_tomtx,
   .merge_uncorrect_reads, .mapping_trimer,
   .collapse_reads, .merge_singlenuc_reads, .mapping_collapsed,
   .run_samtools_collapsed, .add_xt_tag_collapsed, .count_collapsed,
   .convert_tomtx_collapsed, .count_collapsed_direction,
   .convert_tomtx_directional,
   .merge_trimer_bcumi, .run_minimap2_trimer, .run_samtools_trimer,
   .add_xt_tag_trimer, .run_greedy, .full]

/-- C5, counterexample to the claim as stated: in
`pipeline_singlecell.py` there is a valid pipeline run in which barcode
correction executes before the whitelist merge — `correct_reads` depends
only on `identify_bcumi` — and the correction statement consumes no
whitelist at all. -/
theorem C5_counterexample_singlecell_no_barrier :
    ValidSchedule depsSC allSC schedSC ∧
    schedSC.indexOf TaskSC.correct_reads <
      schedSC.indexOf TaskSC.merge_whitelist ∧
    readsWhitelistTxtSC TaskSC.correct_reads = false := by
  refine ⟨⟨by decide, by decide⟩, by decide, rfl⟩

/-- C5 (amended): in the 10x pipeline the whitelist merge is a barrier —
in every valid schedule `merge_whitelist` runs after the chunk decode
task `identify_bcumi` and before `correct_reads`, and `correct_reads`
consumes the merged `whitelist.txt` written by `merge_whitelist`.  In the
singlecell pipeline, by contrast, `correct_reads` consumes no whitelist
and is not ordered after `merge_whitelist`. -/
theorem C5_whitelist_barrier_10x_only :
    (∀ s : List Task10x, ValidSchedule deps10x all10x s →
        s.indexOf Task10x.identify_bcumi <
          s.indexOf Task10x.merge_whitelist ∧
        s.indexOf Task10x.merge_whitelist <
          s.indexOf Task10x.correct_reads) ∧
    readsWhitelistTxt10x Task10x.correct_reads = true ∧
    writesWhitelistTxt10x Task10x.merge_whitelist = true ∧
    readsWhitelistTxtSC TaskSC.correct_reads = false := by
  refine ⟨?_, rfl, rfl, rfl⟩
  intro s hs
  have hmem₁ : Task10x.merge_whitelist ∈ s := (hs.1.mem_iff).2 (by decide)
  have hmem₂ : Task10x.correct_reads ∈ s := (hs.1.mem_iff).2 (by decide)
  exact ⟨hs.2 Task10x.merge_whitelist hmem₁ Task10x.identify_bcumi (by decide),
    hs.2 Task10x.correct_reads hmem₂ Task10x.merge_whitelist (by decide)⟩

theorem C5_whitelist_barrier_witness :
    all10x.indexOf Task10x.identify_bcumi <
      all10x.indexOf Task10x.merge_whitelist ∧
    all10x.indexOf Task10x.merge_whitelist <
      all10x.indexOf Task10x.correct_reads :=
  C5_whitelist_barrier_10x_only.1 all10x ⟨by decide, by decide⟩

/-! ## Barcode correction against the merged whitelist

`Modelled from the spec:` `correct_10xbarcode.py`, invoked by the 10x
`correct_reads` task with the merged `whitelist.txt`, is not among the
available sources.  Following the spec, correction finds the whitelist
entries at minimum edit distance from the observed barcode and then
applies the policy: distance 0 accept as-is; positive distance within the
threshold with a unique nearest neighbour correct to it; a tie among
equally close neighbours is an ambiguous correction, reported as a
distinct outcome from the too-far rejection; distance beyond the
threshold is rejected. -/

/-- Outcome of correcting one decoded barcode. -/
inductive CorrectionResult : Type
  | corrected : Line → ℕ → CorrectionResult
  | ambiguousCorrection : CorrectionResult
  | noWhitelistMatch : CorrectionResult
deriving DecidableEq, Repr

/-- The whitelist entries at minimum distance from the observed barcode. -/
def nearestEntries (W : List Line) (b : Line) : List Line :=
  W.filter (fun w => W.all (fun w' => decide (hamming b w ≤ hamming b w')))

/-- `Modelled from the spec:` whitelist correction of one barcode. -/
def correctBarcode (W : List Line) (t : ℕ) (b : Line) : CorrectionResult :=
  match nearestEntries W b with
  | [] => .noWhitelistMatch
  | [w] =>
    if hamming b w ≤ t then .corrected w (hamming b w) else .noWhitelistMatch
  | w :: _ :: _ =>
    if hamming b w ≤ t then .ambiguousCorrection else .noWhitelistMatch

theorem mem_nearestEntries {W : List Line} {b w : Line} :
    w ∈ nearestEntries W b ↔
      w ∈ W ∧ ∀ w' ∈ W, hamming b w ≤ hamming b w' := by
  simp [nearestEntries, List.mem_filter, List.all_eq_true]

theorem eq_singleton_of_nodup_mem {α : Type} {l : List α} {x : α}
    (hn : l.Nodup) (hx : x ∈ l) (hall : ∀ y ∈ l, y = x) : l = [x] := by
  cases l with
  | nil => cases hx
  | cons a rest =>
    have ha : a = x := hall a (by simp)
    subst ha
    have hrest : rest = [] := by
      rw [List.eq_nil_iff_forall_not_mem]
      intro y hy
      have : y = a := hall y (List.mem_cons_of_mem a hy)
      subst this
      exact (List.nodup_cons.1 hn).1 hy
    rw [hrest]

/-- C1: against a duplicate-free whitelist, correction returns a
whitelisted barcode unchanged with distance 0; when the minimum distance
`d` to the whitelist satisfies `0 < d ≤ t` and exactly one entry attains
it, correction returns that unique entry at distance `d`; when two or
more entries attain the minimum `d ≤ t`, correction reports an ambiguous
correction, an outcome distinct from the too-far rejection; when every
entry is farther than `t`, correction rejects.  For whitelist
`{ACGT, ACGA}` under threshold 1, observed `ACGC` is an ambiguous
correction; so is observed `ACGG`, which is at distance 1 from both
entries (it differs from `ACGA` only in its last base); observed `TCGT`,
at distance 1 from `ACGT` only and distance 2 from `ACGA`, corrects to
`ACGT` at distance 1. -/
theorem C1_barcode_correction :
    (∀ (W : List Line) (t : ℕ) (b : Line), W.Nodup → b ∈ W →
        correctBarcode W t b = .corrected b 0) ∧
    (∀ (W : List Line) (t d : ℕ) (b w : Line), W.Nodup →
        w ∈ W → hamming b w = d → (∀ w' ∈ W, d ≤ hamming b w') →
        0 < d → d ≤ t → (∀ w' ∈ W, hamming b w' = d → w' = w) →
        correctBarcode W t b = .corrected w d) ∧
    (∀ (W : List Line) (t d : ℕ) (b w₁ w₂ : Line),
        w₁ ∈ W → w₂ ∈ W → w₁ ≠ w₂ →
        hamming b w₁ = d → hamming b w₂ = d →
        (∀ w' ∈ W, d ≤ hamming b w') → d ≤ t →
        correctBarcode W t b = .ambiguousCorrection) ∧
    (∀ (W : List Line) (t : ℕ) (b : Line),
        (∀ w' ∈ W, t < hamming b w') →
        correctBarcode W t b = .noWhitelistMatch) ∧
    CorrectionResult.ambiguousCorrection ≠ CorrectionResult.noWhitelistMatch ∧
    correctBarcode
        [[Base.A, Base.C, Base.G, Base.T], [Base.A, Base.C, Base.G, Base.A]] 1
        [Base.A, Base.C, Base.G, Base.C] = .ambiguousCorrection ∧
    correctBarcode
        [[Base.A, Base.C, Base.G, Base.T], [Base.A, Base.C, Base.G, Base.A]] 1
        [Base.A, Base.C, Base.G, Base.G] = .ambiguousCorrection ∧
    correctBarcode
        [[Base.A, Base.C, Base.G, Base.T], [Base.A, Base.C, Base.G, Base.A]] 1
        [Base.T, Base.C, Base.G, Base.T] =
      .corrected [Base.A, Base.C, Base.G, Base.T] 1 := by
  refine ⟨?_, ?_, ?_, ?_, by decide, by decide, by decide, by decide⟩
  · -- distance 0: a whitelisted barcode is returned unchanged
    intro W t b hnodup hbW
    have hb0 : hamming b b = 0 := hamming_self b
    have hmem : b ∈ nearestEntries W b :=
      mem_nearestEntries.2 ⟨hbW, fun w' _ => by
        rw [hb0]; exact Nat.zero_le _⟩
    have hall : ∀ y ∈ nearestEntries W b, y = b := by
      intro y hy
      obtain ⟨hyW, hymin⟩ := mem_nearestEntries.1 hy
      have hle : hamming b y ≤ 0 := hb0 ▸ hymin b hbW
      exact (eq_of_hamming_eq_zero (Nat.le_zero.1 hle)).symm
    have hsingle : nearestEntries W b = [b] :=
      eq_singleton_of_nodup_mem (hnodup.filter _) hmem hall
    simp [correctBarcode, hsingle, hamming_self]
  · -- unique nearest neighbour within the threshold
    intro W t d b w hnodup hwW hwd hmin hdpos hdt huniq
    have hmem : w ∈ nearestEntries W b :=
      mem_nearestEntries.2 ⟨hwW, fun w' hw' => hwd ▸ hmin w' hw'⟩
    have hall : ∀ y ∈ nearestEntries W b, y = w := by
      intro y hy
      obtain ⟨hyW, hymin⟩ := mem_nearestEntries.1 hy
      have h₁ : hamming b y ≤ d := hwd ▸ hymin w hwW
      have h₂ : d ≤ hamming b y := hmin y hyW
      exact huniq y hyW (le_antisymm h₁ h₂)
    have hsingle : nearestEntries W b = [w] :=
      eq_singleton_of_nodup_mem (hnodup.filter _) hmem hall
    simp [correctBarcode, hsingle, hwd, hdt]
  · -- tie among equally close nearest neighbours
    intro W t d b w₁ w₂ hw₁ hw₂ hne hd₁ hd₂ hmin hdt
    have hmem₁ : w₁ ∈ nearestEntries W b :=
      mem_nearestEntries.2 ⟨hw₁, fun w' hw' => hd₁ ▸ hmin w' hw'⟩
    have hmem₂ : w₂ ∈ nearestEntries W b :=
      mem_nearestEntries.2 ⟨hw₂, fun w' hw' => hd₂ ▸ hmin w' hw'⟩
    rcases hcase : nearestEntries W b with _ | ⟨x, _ | ⟨y, rest⟩⟩
    · rw [hcase] at hmem₁; cases hmem₁
    · rw [hcase] at hmem₁ hmem₂
      have e₁ : w₁ = x := List.mem_singleton.1 hmem₁
      have e₂ : w₂ = x := List.mem_singleton.1 hmem₂
      exact absurd (e₁.trans e₂.symm) hne
    · have hxmem : x ∈ nearestEntries W b := by rw [hcase]; simp
      obtain ⟨hxW, hxmin⟩ := mem_nearestEntries.1 hxmem
      have h₁ : hamming b x ≤ d := hd₁ ▸ hxmin w₁ hw₁
      have h₂ : d ≤ hamming b x := hmin x hxW
      have hxd : hamming b x = d := le_antisymm h₁ h₂
      simp [correctBarcode, hcase, hxd, hdt]
  · -- every whitelist entry is farther than the threshold
    intro W t b hfar
    rcases hcase : nearestEntries W b with _ | ⟨x, _ | ⟨y, rest⟩⟩
    · simp [correctBarcode, hcase]
    · have hxmem : x ∈ nearestEntries W b := by rw [hcase]; simp
      have hxW : x ∈ W := (mem_nearestEntries.1 hxmem).1
      have : ¬ hamming b x ≤ t := not_le.2 (hfar x hxW)
      simp [correctBarcode, hcase, this]
    · have hxmem : x ∈ nearestEntries W b := by rw [hcase]; simp
      have hxW : x ∈ W := (mem_nearestEntries.1 hxmem).1
      have : ¬ hamming b x ≤ t := not_le.2 (hfar x hxW)
      simp [correctBarcode, hcase, this]

/-- C1, counterexample to the claim's concrete example: observed `ACGG`
is at Hamming distance 1 from `ACGA` — not 2 as claimed, since the two
differ only in their last base — so under whitelist `{ACGT, ACGA}` it is
tied between the two entries and correction reports an ambiguous
correction instead of correcting to `ACGT`. -/
theorem C1_counterexample_acgg_is_tied :
    hamming [Base.A, Base.C, Base.G, Base.G]
      [Base.A, Base.C, Base.G, Base.A] = 1 ∧
    correctBarcode
        [[Base.A, Base.C, Base.G, Base.T], [Base.A, Base.C, Base.G, Base.A]] 1
        [Base.A, Base.C, Base.G, Base.G] = .ambiguousCorrection ∧
    correctBarcode
        [[Base.A, Base.C, Base.G, Base.T], [Base.A, Base.C, Base.G, Base.A]] 1
        [Base.A, Base.C, Base.G, Base.G] ≠
      .corrected [Base.A, Base.C, Base.G, Base.T] 1 := by
  refine ⟨by decide, by decide, by decide⟩

theorem C1_barcode_correction_witness :
    correctBarcode
        [[Base.A, Base.C, Base.G, Base.T], [Base.A, Base.C, Base.G, Base.A]] 1
        [Base.A, Base.C, Base.G, Base.T] =
      .corrected [Base.A, Base.C, Base.G, Base.T] 0 ∧
    correctBarcode [[Base.A, Base.C, Base.G, Base.T]] 2
        [Base.A, Base.C, Base.G, Base.C] =
      .corrected [Base.A, Base.C, Base.G, Base.T] 1 ∧
    correctBarcode [[Base.A, Base.C, Base.G, Base.T]] 0
        [Base.A, Base.C, Base.G, Base.C] = .noWhitelistMatch :=
  ⟨C1_barcode_correction.1 _ 1 _ (by decide) (by decide),
   C1_barcode_correction.2.1 _ 2 1 _ _ (by decide) (by decide) (by decide)
     (by decide) (by decide) (by decide) (by decide),
   C1_barcode_correction.2.2.2.1 _ 0 _ (by decide)⟩

/-! ## Greedy UMI collapse

`Modelled from the spec:` `greedy_sc.py`, invoked by the `run_greedy`
task, is not among the available sources.  Following the spec, the
greedy/directional collapse repeatedly selects the uncollapsed UMI with
the highest read support — ties on equal support broken by the fixed
lexicographic order on UMI strings — absorbs every UMI within the
configured distance threshold into it, and recurses on the remainder
until no UMIs remain ungrouped; each resulting group counts as one
molecule. -/

/-- A distinct UMI of a molecule group together with its read support. -/
structure UmiNode : Type where
  umi : Line
  support : ℕ
deriving DecidableEq, Repr

/-- The selection order of the greedy collapse: `Better u v` holds when
`u` is selected in preference to `v` — strictly higher read support, or
equal support and lexicographically smaller UMI. -/
def Better (u v : UmiNode) : Prop :=
  v.support < u.support ∨ (v.support = u.support ∧ lineLt u.umi v.umi)

instance : DecidableRel Better := fun u v =>
  inferInstanceAs (Decidable (_ ∨ _))

theorem Better_trans {u v w : UmiNode} (h₁ : Better u v) (h₂ : Better v w) :
    Better u w := by
  rcases h₁ with h₁ | ⟨h₁e, h₁l⟩ <;> rcases h₂ with h₂ | ⟨h₂e, h₂l⟩
  · exact Or.inl (lt_trans h₂ h₁)
  · exact Or.inl (h₂e ▸ h₁)
  · exact Or.inl (h₁e ▸ h₂)
  · exact Or.inr ⟨h₂e.trans h₁e, lt_trans h₁l h₂l⟩

theorem Better_total_of_ne_umi {u v : UmiNode} (h : u.umi ≠ v.umi) :
    Better u v ∨ Better v u := by
  rcases lt_trichotomy u.support v.support with hs | hs | hs
  · exact Or.inr (Or.inl hs)
  · rcases lineLt_or_lt_of_ne h with hl | hl
    · exact Or.inl (Or.inr ⟨hs.symm, hl⟩)
    · exact Or.inr (Or.inr ⟨hs, hl⟩)
  · exact Or.inl (Or.inl hs)

theorem Better_asymm {u v : UmiNode} (h : Better u v) : ¬ Better v u := by
  intro h'
  rcases h with h | ⟨he, hl⟩ <;> rcases h' with h' | ⟨he', hl'⟩
  · exact absurd h' (not_lt.2 (le_of_lt h))
  · exact absurd h (he' ▸ lt_irrefl _)
  · exact absurd h' (he ▸ lt_irrefl _)
  · exact absurd (lt_trans hl hl') (lt_irrefl _)

theorem Better_support_le {u v : UmiNode} (h : Better u v) :
    v.support ≤ u.support := by
  rcases h with h | ⟨he, _⟩
  · exact le_of_lt h
  · exact le_of_eq he

/-- Selection of the node with the highest read support, ties broken by
lexicographically smaller UMI. -/
def selectBest : List UmiNode → Option UmiNode
  | [] => none
  | u :: rest =>
    match selectBest rest with
    | none => some u
    | some v => if Better u v then some u else some v

theorem selectBest_eq_none_iff {l : List UmiNode} :
    selectBest l = none ↔ l = [] := by
  cases l with
  | nil => simp [selectBest]
  | cons u rest =>
    cases h : selectBest rest with
    | none => simp [selectBest, h]
    | some v =>
      simp only [selectBest, h]
      split <;> simp

theorem selectBest_mem : ∀ {l : List UmiNode} {r : UmiNode},
    selectBest l = some r → r ∈ l
  | [], _, h => by simp [selectBest] at h
  | u :: rest, r, h => by
      rcases hsel : selectBest rest with _ | v
      · simp only [selectBest, hsel] at h
        exact (Option.some_inj.1 h) ▸ List.mem_cons_self u rest
      · simp only [selectBest, hsel] at h
        by_cases hb : Better u v
        · rw [if_pos hb] at h
          exact (Option.some_inj.1 h) ▸ List.mem_cons_self u rest
        · rw [if_neg hb] at h
          exact List.mem_cons_of_mem u
            ((Option.some_inj.1 h) ▸ selectBest_mem hsel)

theorem selectBest_best :
    ∀ {l : List UmiNode} {r : UmiNode},
      l.Pairwise (fun a b => a.umi ≠ b.umi) → selectBest l = some r →
      ∀ u ∈ l, u ≠ r → Better r u
  | [], _, _, h => by simp [selectBest] at h
  | u :: rest, r, hp, h => by
      have hpu : ∀ x ∈ rest, u.umi ≠ x.umi := (List.pairwise_cons.1 hp).1
      have hptail : rest.Pairwise (fun a b => a.umi ≠ b.umi) :=
        (List.pairwise_cons.1 hp).2
      rcases hsel : selectBest rest with _ | v
      · have hrest : rest = [] := selectBest_eq_none_iff.1 hsel
        simp only [selectBest, hsel] at h
        have hru : r = u := (Option.some_inj.1 h).symm
        subst hru
        subst hrest
        intro x hx hxr
        rcases List.mem_cons.1 hx with rfl | hx'
        · exact absurd rfl hxr
        · cases hx'
      · simp only [selectBest, hsel] at h
        have hbestv : ∀ x ∈ rest, x ≠ v → Better v x :=
          selectBest_best hptail hsel
        have hvrest : v ∈ rest := selectBest_mem hsel
        by_cases hb : Better u v
        · rw [if_pos hb] at h
          have hru : r = u := (Option.some_inj.1 h).symm
          subst hru
          intro x hx hxr
          rcases List.mem_cons.1 hx with rfl | hx'
          · exact absurd rfl hxr
          · by_cases hxv : x = v
            · exact hxv ▸ hb
            · exact Better_trans hb (hbestv x hx' hxv)
        · rw [if_neg hb] at h
          have hrv : r = v := (Option.some_inj.1 h).symm
          subst hrv
          intro x hx hxr
          rcases List.mem_cons.1 hx with rfl | hx'
          · rcases Better_total_of_ne_umi (hpu r hvrest) with hb' | hb'
            · exact absurd hb' hb
            · exact hb'
          · exact hbestv x hx' hxr

theorem selectBest_perm {l l' : List UmiNode}
    (hperm : l.Perm l')
    (hp : l.Pairwise (fun a b => a.umi ≠ b.umi)) :
    selectBest l = selectBest l' := by
  have hp' : l'.Pairwise (fun a b => a.umi ≠ b.umi) :=
    (hperm.pairwise_iff (fun h => h.symm)).1 hp
  rcases hsel : selectBest l with _ | r
  · rcases hsel' : selectBest l' with _ | r'
    · rfl
    · have : l = [] := selectBest_eq_none_iff.1 hsel
      subst this
      have : l' = [] := hperm.symm.eq_nil
      subst this
      simp [selectBest] at hsel'
  · rcases hsel' : selectBest l' with _ | r'
    · have : l' = [] := selectBest_eq_none_iff.1 hsel'
      subst this
      have : l = [] := hperm.eq_nil
      subst this
      simp [selectBest] at hsel
    · by_cases hrr : r = r'
      · rw [hrr]
      · have hr : r ∈ l := selectBest_mem hsel
        have hr' : r' ∈ l' := selectBest_mem hsel'
        have h₁ : Better r r' :=
          selectBest_best hp hsel r' (hperm.mem_iff.2 hr') (fun h => hrr h.symm)
        have h₂ : Better r' r :=
          selectBest_best hp' hsel' r (hperm.mem_iff.1 hr) hrr
        exact absurd h₂ (Better_asymm h₁)

/-- Whether a UMI lies within the distance threshold of the selected
representative. -/
def nearUmi (t : ℕ) (r u : UmiNode) : Bool :=
  decide (hamming r.umi u.umi ≤ t)

/-- Fuel-indexed greedy collapse: select the best-supported node, absorb
every node within the threshold, recurse on the rest. -/
def greedyGo (t : ℕ) : ℕ → List UmiNode → List (UmiNode × List UmiNode)
  | 0, _ => []
  | fuel + 1, l =>
    match selectBest l with
    | none => []
    | some r =>
      (r, l.filter (nearUmi t r)) ::
        greedyGo t fuel (l.filter (fun u => !nearUmi t r u))

/-- `Modelled from the spec:` the greedy/directional UMI collapse of
`greedy_sc.py`.  The fuel `l.length` always suffices because each round
removes at least the selected representative (`greedyGo_fuel`). -/
def greedy (t : ℕ) (l : List UmiNode) : List (UmiNode × List UmiNode) :=
  greedyGo t l.length l

theorem greedyGo_nil (t fuel : ℕ) : greedyGo t fuel [] = [] := by
  cases fuel with
  | zero => rfl
  | succ f => simp [greedyGo, selectBest]

theorem length_filter_not_near_lt {t : ℕ} {l : List UmiNode} {r : UmiNode}
    (hr : r ∈ l) :
    (l.filter (fun u => !nearUmi t r u)).length < l.length := by
  refine List.length_filter_lt_length_iff_exists.2 ⟨r, hr, ?_⟩
  simp [nearUmi, hamming_self]

theorem greedyGo_fuel (t : ℕ) :
    ∀ (fuel fuel' : ℕ) (l : List UmiNode),
      l.length ≤ fuel → l.length ≤ fuel' →
      greedyGo t fuel l = greedyGo t fuel' l := by
  intro fuel
  induction fuel with
  | zero =>
    intro fuel' l hf hf'
    have : l = [] := List.eq_nil_of_length_eq_zero (Nat.le_zero.1 hf)
    subst this
    rw [greedyGo_nil, greedyGo_nil]
  | succ fuel ih =>
    intro fuel' l hf hf'
    cases fuel' with
    | zero =>
      have : l = [] := List.eq_nil_of_length_eq_zero (Nat.le_zero.1 hf')
      subst this
      rw [greedyGo_nil, greedyGo_nil]
    | succ fuel'' =>
      rcases hsel : selectBest l with _ | r
      · simp [greedyGo, hsel]
      · have hr : r ∈ l := selectBest_mem hsel
        have hlt : (l.filter (fun u => !nearUmi t r u)).length < l.length :=
          length_filter_not_near_lt hr
        simp only [greedyGo, hsel]
        rw [ih fuel'' _ (Nat.le_of_lt_succ (lt_of_lt_of_le hlt hf))
          (Nat.le_of_lt_succ (lt_of_lt_of_le hlt hf'))]

/-- One-step unfolding of the greedy collapse. -/
theorem greedy_unfold (t : ℕ) (l : List UmiNode) :
    greedy t l =
      match selectBest l with
      | none => []
      | some r =>
        (r, l.filter (nearUmi t r)) ::
          greedy t (l.filter (fun u => !nearUmi t r u)) := by
  rcases hsel : selectBest l with _ | r
  · have : l = [] := selectBest_eq_none_iff.1 hsel
    subst this
    simp [greedy, greedyGo_nil]
  · have hr : r ∈ l := selectBest_mem hsel
    have hne : l ≠ [] := by
      rintro rfl
      cases hr
    obtain ⟨a, as, rfl⟩ := List.exists_cons_of_ne_nil hne
    simp only [greedy, List.length_cons, greedyGo, hsel]
    rw [greedyGo_fuel t as.length
      ((a :: as).filter (fun u => !nearUmi t r u)).length _
      (Nat.le_of_lt_succ (length_filter_not_near_lt hr)) (le_refl _)]

theorem greedy_perm_forall₂ (t : ℕ) :
    ∀ (n : ℕ) (l l' : List UmiNode), l.length ≤ n → l.Perm l' →
      l.Pairwise (fun a b => a.umi ≠ b.umi) →
      List.Forall₂ (fun g g' : UmiNode × List UmiNode =>
        g.1 = g'.1 ∧ g.2.Perm g'.2) (greedy t l) (greedy t l') := by
  intro n
  induction n with
  | zero =>
    intro l l' hlen hperm hp
    have : l = [] := List.eq_nil_of_length_eq_zero (Nat.le_zero.1 hlen)
    subst this
    have : l' = [] := hperm.symm.eq_nil
    subst this
    exact List.Forall₂.nil
  | succ n ih =>
    intro l l' hlen hperm hp
    rw [greedy_unfold t l, greedy_unfold t l']
    rcases hsel : selectBest l with _ | r
    · have hsel' : selectBest l' = none := by
        rw [← selectBest_perm hperm hp, hsel]
      simp only [hsel, hsel']
      exact List.Forall₂.nil
    · have hsel' : selectBest l' = some r := by
        rw [← selectBest_perm hperm hp, hsel]
      simp only [hsel, hsel']
      refine List.Forall₂.cons ⟨rfl, hperm.filter _⟩ ?_
      have hr : r ∈ l := selectBest_mem hsel
      refine ih _ _ ?_ (hperm.filter _) ?_
      · exact Nat.le_of_lt_succ
          (lt_of_lt_of_le (length_filter_not_near_lt hr) hlen)
      · exact List.Pairwise.sublist (List.filter_sublist l) hp

theorem forall₂_map_fst_eq {gs gs' : List (UmiNode × List UmiNode)}
    (h : List.Forall₂ (fun g g' : UmiNode × List UmiNode =>
      g.1 = g'.1 ∧ g.2.Perm g'.2) gs gs') :
    gs.map Prod.fst = gs'.map Prod.fst := by
  induction h with
  | nil => rfl
  | cons h₁ h₂ ih => simp only [List.map_cons, h₁.1, ih]

/-- C6: greedy UMI collapse is deterministic.  For a molecule group with
pairwise-distinct UMI strings, running the collapse on any two orderings
of the input yields the same number of molecules and the same
representative UMI for each resulting group; and ties on equal read
support are broken by the fixed lexicographic UMI order — the node with
the lexicographically smaller UMI is selected whichever way the pair is
listed — never arbitrarily. -/
theorem C6_greedy_collapse_deterministic :
    (∀ (t : ℕ) (l l' : List UmiNode),
        l.Pairwise (fun a b => a.umi ≠ b.umi) → l.Perm l' →
        (greedy t l).length = (greedy t l').length ∧
        (greedy t l).map Prod.fst = (greedy t l').map Prod.fst) ∧
    (∀ u v : UmiNode, u.support = v.support → lineLt u.umi v.umi →
        selectBest [u, v] = some u ∧ selectBest [v, u] = some u) := by
  constructor
  · intro t l l' hp hperm
    have h := greedy_perm_forall₂ t l.length l l' (le_refl _) hperm hp
    exact ⟨h.length_eq, forall₂_map_fst_eq h⟩
  · intro u v hs hl
    constructor
    · have hb : Better u v := Or.inr ⟨hs.symm, hl⟩
      simp only [selectBest]
      rw [if_pos hb]
    · have hb : ¬ Better v u := by
        rintro (h | ⟨he, hlt⟩)
        · rw [hs] at h
          exact lt_irrefl _ h
        · exact (lt_asymm hl) hlt
      simp only [selectBest]
      rw [if_neg hb]

theorem C6_greedy_collapse_deterministic_witness :
    (greedy 1 [(⟨[Base.C], 1⟩ : UmiNode), ⟨[Base.A], 1⟩]).map Prod.fst =
      (greedy 1 [(⟨[Base.A], 1⟩ : UmiNode), ⟨[Base.C], 1⟩]).map Prod.fst ∧
    selectBest [(⟨[Base.A], 1⟩ : UmiNode), ⟨[Base.C], 1⟩] =
      some ⟨[Base.A], 1⟩ :=
  ⟨(C6_greedy_collapse_deterministic.1 1
      [⟨[Base.C], 1⟩, ⟨[Base.A], 1⟩] [⟨[Base.A], 1⟩, ⟨[Base.C], 1⟩]
      (by decide) (by decide)).2,
   (C6_greedy_collapse_deterministic.2 ⟨[Base.A], 1⟩ ⟨[Base.C], 1⟩
      rfl (by decide)).1⟩

/-- C7: the greedy collapse repeatedly selects the uncollapsed UMI with
the highest read support, absorbs all neighbours within the distance
threshold into it, and recurses on the remainder until no UMIs remain
ungrouped (every input UMI lands in exactly one group), each group
counting as one molecule.  The group `AAAA`(5), `AAAT`(1), `GGGG`(3)
under threshold 1 collapses to exactly two molecules, `AAAA` absorbing
`AAAT`, and `GGGG` alone. -/
theorem C7_greedy_collapse :
    (∀ t : ℕ, greedy t [] = []) ∧
    (∀ (t : ℕ) (l : List UmiNode) (r : UmiNode),
        l.Pairwise (fun a b => a.umi ≠ b.umi) → selectBest l = some r →
        r ∈ l ∧ (∀ u ∈ l, u.support ≤ r.support) ∧
        greedy t l =
          (r, l.filter (nearUmi t r)) ::
            greedy t (l.filter (fun u => !nearUmi t r u))) ∧
    (∀ (t : ℕ) (l : List UmiNode),
        ((greedy t l).map Prod.snd).flatten.Perm l) ∧
    greedy 1 [⟨[Base.A, Base.A, Base.A, Base.A], 5⟩,
        ⟨[Base.A, Base.A, Base.A, Base.T], 1⟩,
        ⟨[Base.G, Base.G, Base.G, Base.G], 3⟩] =
      [(⟨[Base.A, Base.A, Base.A, Base.A], 5⟩,
        [⟨[Base.A, Base.A, Base.A, Base.A], 5⟩,
         ⟨[Base.A, Base.A, Base.A, Base.T], 1⟩]),
       (⟨[Base.G, Base.G, Base.G, Base.G], 3⟩,
        [⟨[Base.G, Base.G, Base.G, Base.G], 3⟩])] ∧
    (greedy 1 [⟨[Base.A, Base.A, Base.A, Base.A], 5⟩,
        ⟨[Base.A, Base.A, Base.A, Base.T], 1⟩,
        ⟨[Base.G, Base.G, Base.G, Base.G], 3⟩]).length = 2 := by
  refine ⟨fun t => rfl, ?_, ?_, by decide, by decide⟩
  · intro t l r hp hsel
    refine ⟨selectBest_mem hsel, ?_, ?_⟩
    · intro u hu
      by_cases hur : u = r
      · exact hur ▸ le_refl _
      · exact Better_support_le (selectBest_best hp hsel u hu hur)
    · rw [greedy_unfold t l, hsel]
  · intro t l
    have hgen : ∀ (n : ℕ) (l : List UmiNode), l.length ≤ n →
        ((greedy t l).map Prod.snd).flatten.Perm l := by
      intro n
      induction n with
      | zero =>
        intro l hlen
        have : l = [] := List.eq_nil_of_length_eq_zero (Nat.le_zero.1 hlen)
        subst this
        exact List.Perm.refl _
      | succ n ih =>
        intro l hlen
        rw [greedy_unfold t l]
        rcases hsel : selectBest l with _ | r
        · have : l = [] := selectBest_eq_none_iff.1 hsel
          subst this
          exact List.Perm.refl _
        · have hr : r ∈ l := selectBest_mem hsel
          simp only [List.map_cons, List.flatten_cons]
          have hrec := ih (l.filter (fun u => !nearUmi t r u))
            (Nat.le_of_lt_succ
              (lt_of_lt_of_le (length_filter_not_near_lt hr) hlen))
          exact List.Perm.trans (List.Perm.append_left _ hrec)
            (List.filter_append_perm _ l)
    exact hgen l.length l (le_refl _)

theorem C7_greedy_collapse_witness :
    (⟨[Base.A], 2⟩ : UmiNode) ∈
      [(⟨[Base.A], 2⟩ : UmiNode), ⟨[Base.C], 1⟩] ∧
    (∀ u ∈ [(⟨[Base.A], 2⟩ : UmiNode), ⟨[Base.C], 1⟩],
      u.support ≤ (⟨[Base.A], 2⟩ : UmiNode).support) ∧
    greedy 1 [(⟨[Base.A], 2⟩ : UmiNode), ⟨[Base.C], 1⟩] =
      (⟨[Base.A], 2⟩,
        [(⟨[Base.A], 2⟩ : UmiNode), ⟨[Base.C], 1⟩].filter
          (nearUmi 1 ⟨[Base.A], 2⟩)) ::
        greedy 1 ([(⟨[Base.A], 2⟩ : UmiNode), ⟨[Base.C], 1⟩].filter
          (fun u => !nearUmi 1 ⟨[Base.A], 2⟩ u)) :=
  C7_greedy_collapse.2.1 1 [⟨[Base.A], 2⟩, ⟨[Base.C], 1⟩] ⟨[Base.A], 2⟩
    (by decide) (by decide)

/-! ## Per-read error handling

`Modelled from the spec:` the per-read processing scripts are not among
the available sources.  The record processor below composes the stages
modelled above — anchoring, window extraction, trimer decoding, whitelist
correction, feature tagging — and classifies every failure as one of the
six per-read error kinds; a chunk processor folds over the records,
dropping each failed record and tallying it in a per-error-kind
diagnostic counter, so no single bad record aborts the chunk. -/

/-- The per-read recoverable error kinds. -/
inductive ReadError : Type
  | unanchoredRead : ReadError
  | truncatedWindow : ReadError
  | ambiguousTriplet : ReadError
  | noWhitelistMatch : ReadError
  | ambiguousCorrection : ReadError
  | malformedFeatureTag : ReadError
deriving DecidableEq, Repr

/-- A raw record entering per-read processing: its anchoring outcome, the
barcode window following the poly-A anchor, and the feature tag of its
alignment (absent when malformed). -/
structure RawRecord : Type where
  anchored : Bool
  window : List Base
  featureTag : Option Line
deriving DecidableEq, Repr

/-- A successfully processed record. -/
structure GoodRecord : Type where
  barcode : Line
  dist : ℕ
  feature : Line
deriving DecidableEq, Repr

/-- Decode a window of base triplets; `none` as soon as any triplet has
three distinct bases (no majority). -/
def decodeTriplets : List Base → Option Line
  | [] => some []
  | a :: b :: c :: rest =>
    match decodeTriplet a b c, decodeTriplets rest with
    | .decoded m _, some ds => some (m :: ds)
    | _, _ => none
  | _ => none

/-- `Modelled from the spec:` per-read processing with tagged outcomes. -/
def processRecord (W : List Line) (t L : ℕ) (r : RawRecord) :
    Except ReadError GoodRecord :=
  if r.anchored = false then .error .unanchoredRead
  else if r.window.length < 3 * L then .error .truncatedWindow
  else
    match decodeTriplets (r.window.take (3 * L)) with
    | none => .error .ambiguousTriplet
    | some bc =>
      match correctBarcode W t bc with
      | .corrected b d =>
        match r.featureTag with
        | none => .error .malformedFeatureTag
        | some f => .ok ⟨b, d, f⟩
      | .ambiguousCorrection => .error .ambiguousCorrection
      | .noWhitelistMatch => .error .noWhitelistMatch

instance : DecidableEq (Except ReadError GoodRecord) := fun a b =>
  match a, b with
  | .ok x, .ok y =>
    if h : x = y then isTrue (by rw [h])
    else isFalse (fun hc => h (Except.ok.inj hc))
  | .error x, .error y =>
    if h : x = y then isTrue (by rw [h])
    else isFalse (fun hc => h (Except.error.inj hc))
  | .ok _, .error _ => isFalse (fun hc => Except.noConfusion hc)
  | .error _, .ok _ => isFalse (fun hc => Except.noConfusion hc)

/-- Increment the diagnostic counter of one error kind. -/
def bumpCounter (cnt : ReadError → ℕ) (e : ReadError) : ReadError → ℕ :=
  fun e' => if e' = e then cnt e' + 1 else cnt e'

/-- Fold per-read processing over a chunk: failed records are dropped and
tallied, successful records are kept. -/
def processChunk (W : List Line) (t L : ℕ) :
    List RawRecord → List GoodRecord × (ReadError → ℕ)
  | [] => ([], fun _ => 0)
  | r :: rs =>
    match processRecord W t L r with
    | .ok g =>
      (g :: (processChunk W t L rs).1, (processChunk W t L rs).2)
    | .error e =>
      ((processChunk W t L rs).1,
        bumpCounter (processChunk W t L rs).2 e)

/-- The six per-read error kinds. -/
def allErrors : List ReadError :=
  [.unanchoredRead, .truncatedWindow, .ambiguousTriplet,
   .noWhitelistMatch, .ambiguousCorrection, .malformedFeatureTag]

/-- Total of the per-error-kind diagnostic counters. -/
def totalErrors (cnt : ReadError → ℕ) : ℕ := (allErrors.map cnt).sum

theorem totalErrors_bump (cnt : ReadError → ℕ) (e : ReadError) :
    totalErrors (bumpCounter cnt e) = totalErrors cnt + 1 := by
  cases e <;> simp [totalErrors, allErrors, bumpCounter] <;> omega

/-- C8: every per-read error condition is recoverable.  Over any chunk,
the records kept plus the records tallied in the diagnostic counters
account for every input record (no record aborts the chunk); each
error-kind counter counts exactly the records failing with that kind;
the kept records are exactly the successfully processed ones; a record
is kept only when every triplet decoded to a majority base, correction
found a unique nearest whitelist entry and the feature tag was present —
so an ambiguous decode or a tied correction is never replaced by a
best-effort guess; and the six error kinds are pairwise distinct
countable outcomes. -/
theorem C8_per_read_errors_recoverable :
    (∀ (W : List Line) (t L : ℕ) (rs : List RawRecord),
        (processChunk W t L rs).1.length +
          totalErrors (processChunk W t L rs).2 = rs.length) ∧
    (∀ (W : List Line) (t L : ℕ) (rs : List RawRecord) (e : ReadError),
        (processChunk W t L rs).2 e =
          (rs.filter (fun r =>
            decide (processRecord W t L r = .error e))).length) ∧
    (∀ (W : List Line) (t L : ℕ) (rs : List RawRecord),
        (processChunk W t L rs).1 =
          rs.filterMap (fun r => (processRecord W t L r).toOption)) ∧
    (∀ (W : List Line) (t L : ℕ) (r : RawRecord) (g : GoodRecord),
        processRecord W t L r = .ok g →
        ∃ bc, decodeTriplets (r.window.take (3 * L)) = some bc ∧
          correctBarcode W t bc = .corrected g.barcode g.dist ∧
          r.featureTag = some g.feature) ∧
    allErrors.Nodup := by
  refine ⟨?_, ?_, ?_, ?_, by decide⟩
  · intro W t L rs
    induction rs with
    | nil => simp [processChunk, totalErrors, allErrors]
    | cons r rs ih =>
      rcases h : processRecord W t L r with e | g
      · simp only [processChunk, h, List.length_cons]
        rw [totalErrors_bump]
        omega
      · simp only [processChunk, h, List.length_cons]
        omega
  · intro W t L rs e
    induction rs with
    | nil => simp [processChunk]
    | cons r rs ih =>
      rcases h : processRecord W t L r with e' | g
      · simp only [processChunk, h, bumpCounter]
        by_cases he : e = e'
        · subst he
          rw [List.filter_cons_of_pos (by simp [h])]
          simp [ih]
        · rw [List.filter_cons_of_neg
            (by simp only [h, decide_eq_true_eq, Except.error.injEq]
                exact fun hc => he hc.symm)]
          simp [ih, he]
      · simp only [processChunk, h]
        rw [List.filter_cons_of_neg (by simp [h])]
        exact ih
  · intro W t L rs
    induction rs with
    | nil => simp [processChunk]
    | cons r rs ih =>
      rcases h : processRecord W t L r with e | g
      · simp [processChunk, h, Except.toOption, ih]
      · simp [processChunk, h, Except.toOption, ih]
  · intro W t L r g h
    rw [processRecord] at h
    by_cases h1 : r.anchored = false
    · rw [if_pos h1] at h
      exact Except.noConfusion h
    · rw [if_neg h1] at h
      by_cases h2 : r.window.length < 3 * L
      · rw [if_pos h2] at h
        exact Except.noConfusion h
      · rw [if_neg h2] at h
        rcases hdec : decodeTriplets (r.window.take (3 * L)) with _ | bc
        · simp only [hdec] at h
          exact Except.noConfusion h
        · simp only [hdec] at h
          cases hcor : correctBarcode W t bc with
          | corrected b d =>
            simp only [hcor] at h
            rcases hft : r.featureTag with _ | f
            · simp only [hft] at h
              exact Except.noConfusion h
            · simp only [hft] at h
              have hg : (⟨b, d, f⟩ : GoodRecord) = g := Except.ok.inj h
              subst hg
              exact ⟨bc, rfl, hcor, rfl⟩
          | ambiguousCorrection =>
            simp only [hcor] at h
            exact Except.noConfusion h
          | noWhitelistMatch =>
            simp only [hcor] at h
            exact Except.noConfusion h

theorem C8_per_read_errors_witness :
    ∃ bc,
      decodeTriplets
        ((⟨true, [Base.A, Base.A, Base.A], some [Base.G]⟩ :
          RawRecord).window.take (3 * 1)) = some bc ∧
      correctBarcode [[Base.A]] 0 bc =
        .corrected (⟨[Base.A], 0, [Base.G]⟩ : GoodRecord).barcode
          (⟨[Base.A], 0, [Base.G]⟩ : GoodRecord).dist ∧
      (⟨true, [Base.A, Base.A, Base.A], some [Base.G]⟩ :
        RawRecord).featureTag =
        some (⟨[Base.A], 0, [Base.G]⟩ : GoodRecord).feature :=
  C8_per_read_errors_recoverable.2.2.2.1 [[Base.A]] 0 1
    ⟨true, [Base.A, Base.A, Base.A], some [Base.G]⟩
    ⟨[Base.A], 0, [Base.G]⟩ rfl

/-! ## Count-matrix aggregation

`Modelled from the spec:` `save_mtx.py`, invoked by the `convert_tomtx`
tasks to build the sparse matrix, is not among the available sources
(`merge_featurecounts_data` in `pipeline_illumina.py` joins per-sample
count columns rather than summing duplicate entries).  Following the
spec, aggregation folds `CountEntry` values into a sparse
cell-by-feature matrix, summing duplicate `(cell, feature)` entries; the
matrix is modelled as the function from `(cell, feature)` keys to
accumulated counts. -/

/-- One post-collapse count record: `(cell_barcode, feature_id) → count`. -/
structure CountEntry : Type where
  cell : Line
  feature : Line
  count : ℕ
deriving DecidableEq, Repr

/-- Add one entry into the accumulating matrix. -/
def addEntry (m : Line × Line → ℕ) (e : CountEntry) : Line × Line → ℕ :=
  fun k => if k = (e.cell, e.feature) then m k + e.count else m k

/-- `Modelled from the spec:` serial accumulation of a stream of count
entries into the sparse matrix. -/
def aggregate (entries : List CountEntry) : Line × Line → ℕ :=
  entries.foldl addEntry (fun _ => 0)

theorem foldl_addEntry_eq :
    ∀ (l : List CountEntry) (m : Line × Line → ℕ) (k : Line × Line),
      List.foldl addEntry m l k = m k + aggregate l k := by
  intro l
  induction l with
  | nil =>
    intro m k
    simp [aggregate]
  | cons e l ih =>
    intro m k
    show List.foldl addEntry (addEntry m e) l k = m k + aggregate (e :: l) k
    rw [ih (addEntry m e) k]
    have hcons : aggregate (e :: l) k =
        addEntry (fun _ => 0) e k + aggregate l k := by
      show List.foldl addEntry (addEntry (fun _ => 0) e) l k = _
      rw [ih (addEntry (fun _ => 0) e) k]
    rw [hcons]
    by_cases hk : k = (e.cell, e.feature) <;> simp [addEntry, hk] <;> omega

theorem aggregate_cons (e : CountEntry) (l : List CountEntry)
    (k : Line × Line) :
    aggregate (e :: l) k = addEntry (fun _ => 0) e k + aggregate l k := by
  show List.foldl addEntry (addEntry (fun _ => 0) e) l k = _
  rw [foldl_addEntry_eq l (addEntry (fun _ => 0) e) k]

/-- C9: matrix aggregation is commutative and associative.  Summing the
duplicate `(cell, feature)` entries of a stream in any order yields the
same sparse matrix; two partial sums over a split stream merge by
pointwise addition into the total; and re-bracketing the stream does not
change the result — so parallel partial sums followed by a merge equal a
single serial accumulation. -/
theorem C9_matrix_aggregation_commutative :
    (∀ l l' : List CountEntry, l.Perm l' → aggregate l = aggregate l') ∧
    (∀ (l₁ l₂ : List CountEntry) (k : Line × Line),
        aggregate (l₁ ++ l₂) k = aggregate l₁ k + aggregate l₂ k) ∧
    (∀ l₁ l₂ l₃ : List CountEntry,
        aggregate ((l₁ ++ l₂) ++ l₃) = aggregate (l₁ ++ (l₂ ++ l₃))) := by
  refine ⟨?_, ?_, ?_⟩
  · intro l l' h
    induction h with
    | nil => rfl
    | cons x h ih =>
      funext k
      rw [aggregate_cons, aggregate_cons, ih]
    | swap x y l =>
      funext k
      rw [aggregate_cons, aggregate_cons, aggregate_cons, aggregate_cons]
      omega
    | trans h₁ h₂ ih₁ ih₂ =>
      rw [ih₁, ih₂]
  · intro l₁ l₂ k
    show List.foldl addEntry (fun _ => 0) (l₁ ++ l₂) k = _
    rw [List.foldl_append]
    exact foldl_addEntry_eq l₂ (List.foldl addEntry (fun _ => 0) l₁) k
  · intro l₁ l₂ l₃
    rw [List.append_assoc]

theorem C9_matrix_aggregation_witness :
    aggregate [(⟨[Base.A], [Base.C], 2⟩ : CountEntry),
        ⟨[Base.A], [Base.C], 3⟩] =
      aggregate [(⟨[Base.A], [Base.C], 3⟩ : CountEntry),
        ⟨[Base.A], [Base.C], 2⟩] :=
  C9_matrix_aggregation_commutative.1 _ _ (by decide)
